import Mathlib

/-!
Verification of the TheatreMix DCA cue generator (`src/theatremix/dca.py`).

The development shallowly embeds the cue-generation core: script elements are
records with a string kind tag and a text payload (exactly as the Python
`fountain` elements expose `element_type` / `element_text`), the character-name
normalizer `split_characters`, the lookahead liveness checker `speaks_within`,
the dialogue preview extractors, and the single-pass DCA allocator
`generate_dca_cues` as a fold of a step function over the element list.

Python data structures are modelled as follows: `set` objects holding character
names are insertion-ordered duplicate-free lists (all uses are membership tests,
adds, discards and iteration; where the source iterates a set and the iteration
order is observable in the output, the model takes the order as an explicit
parameter, since CPython randomizes string hashes across processes), `dict`
objects are insertion-ordered association lists, and the integer set of
available DCAs is a duplicate-free list of naturals whose minimum models
Python's `min`.  Strings are Lean `String`s; the ASCII-level string operations
(`strip`, slicing, `title()`, the `[a-z]` and `\d` regex classes) are defined
over the underlying character lists.
-/

/-- Script element, mirroring the `fountain` parser output consumed by
`dca.py`: a kind tag (`element_type`, e.g. "Scene Heading", "Character",
"Dialogue", "Comment") and a text payload (`element_text`). -/
structure Element where
  element_type : String
  element_text : String
deriving DecidableEq, Repr

/-- Whitespace characters removed by Python's `str.strip()`. -/
def isPySpace (c : Char) : Bool :=
  c = ' ' || c = '\t' || c = '\n' || c = '\r' || c = '\x0b' || c = '\x0c'

/-- Python `str.strip()`: drop leading and trailing whitespace. -/
def pyStrip (s : String) : String :=
  ⟨((s.data.dropWhile isPySpace).reverse.dropWhile isPySpace).reverse⟩

/-- Python slicing `s[:k]`: the first `k` characters. -/
def pyTrunc (s : String) (k : Nat) : String :=
  ⟨s.data.take k⟩

/-- Python slicing `s[-k:]` (used with `k > 0` by the preview extractor):
the last `k` characters; `s[-0:]` is the whole string. -/
def pyLastChars (s : String) (k : Nat) : String :=
  if k = 0 then s else ⟨s.data.drop (s.data.length - k)⟩

/-- Whether the string contains an ASCII lowercase letter, modelling the
`re.search(r'[a-z]', c)` test in `split_characters`. -/
def hasLower (s : String) : Bool :=
  s.data.any (fun c => 'a' ≤ c && c ≤ 'z')

/-- Helper for `pyTitle`: walk the characters carrying whether the previous
character was a letter (Python: a cased character). -/
def pyTitleGo : Bool → List Char → List Char
  | _, [] => []
  | prevCased, c :: rest =>
    if c.isAlpha then
      (if prevCased then c.toLower else c.toUpper) :: pyTitleGo true rest
    else
      c :: pyTitleGo false rest

/-- Python `str.title()` (ASCII): uppercase a letter at a word boundary,
lowercase the following letters. -/
def pyTitle (s : String) : String :=
  ⟨pyTitleGo false s.data⟩

/-- Helper for `removeParens`: position after the first `')'`, if any. -/
def dropThroughParen : List Char → Option (List Char)
  | [] => none
  | c :: rest => if c = ')' then some rest else dropThroughParen rest

/-- Helper for `removeParens`: delete every substring matched by the regex
`\([^)]*\)` (an opening paren, any non-`)` characters, a closing paren);
an opening paren with no later closing paren is left in place.  The fuel
argument only makes the recursion structural (the remainder returned by
`dropThroughParen` is strictly shorter, so fuel `≥` the list length is never
exhausted); it does not change the computed value. -/
def removeParensGo : Nat → List Char → List Char
  | 0, l => l
  | _ + 1, [] => []
  | fuel + 1, c :: rest =>
    if c = '(' then
      match dropThroughParen rest with
      | some rest2 => removeParensGo fuel rest2
      | none => c :: removeParensGo fuel rest
    else c :: removeParensGo fuel rest

/-- Python `re.sub(r'\([^)]*\)', '', characters)`. -/
def removeParens (s : String) : String :=
  ⟨removeParensGo s.data.length s.data⟩

/-- Python `characters.split(' & ')`: split on the literal three-character
separator, leftmost-first, non-overlapping.  The empty string yields `[[]]`,
matching Python's `''.split(' & ') == ['']`. -/
def splitAmpGo (cur : List Char) : List Char → List (List Char)
  | [] => [cur.reverse]
  | ' ' :: '&' :: ' ' :: rest => cur.reverse :: splitAmpGo [] rest
  | c :: rest => splitAmpGo (c :: cur) rest

/-- Character name normalizer (`split_characters` in `dca.py`): remove
parenthesized substrings, split on `' & '`, and title-case each piece unless
it already contains a lowercase letter. -/
def split_characters (characters : String) : List String :=
  (splitAmpGo [] (removeParens characters).data).map (fun cs =>
    let c : String := ⟨cs⟩
    if hasLower c then c else pyTitle c)

/-- Worker for `speaks_within`, carrying the `dialogues` counter and the
`first_skipped` flag of the Python loop. -/
def speaksWithinAux (character : String) (n : Nat) :
    List Element → Nat → Bool → Bool
  | [], _, _ => false
  | e :: rest, dialogues, firstSkipped =>
    if n ≤ dialogues then false
    else if e.element_type = "Scene Heading" then false
    else if e.element_type = "Character" then
      if firstSkipped = false then
        speaksWithinAux character n rest dialogues true
      else if character ∈ split_characters e.element_text then true
      else speaksWithinAux character n rest (dialogues + 1) firstSkipped
    else speaksWithinAux character n rest dialogues firstSkipped

/-- Lookahead liveness checker (`speaks_within` in `dca.py`): does `character`
speak within the next `n` dialogue blocks, before any scene change? -/
def speaks_within (book : List Element) (character : String) (n : Nat)
    (skip_first : Bool) : Bool :=
  speaksWithinAux character n book 0 (!skip_first)

/-- Membership test on string lists (Python `in` on a set of names). -/
def memStr : List String → String → Bool
  | [], _ => false
  | s :: rest, t => if s = t then true else memStr rest t

/-- Membership test on natural-number lists (Python `in` on a set of DCAs). -/
def memNat : List Nat → Nat → Bool
  | [], _ => false
  | n :: rest, m => if n = m then true else memNat rest m

/-- Python `set.discard` / removal of the (unique) occurrence of a name. -/
def eraseStr : List String → String → List String
  | [], _ => []
  | s :: rest, t => if s = t then rest else s :: eraseStr rest t

/-- Python `set.remove` on the available-DCA set. -/
def eraseNat : List Nat → Nat → List Nat
  | [], _ => []
  | n :: rest, m => if n = m then rest else n :: eraseNat rest m

/-- Python `set.add` on the available-DCA set: no duplicate is introduced. -/
def addNatSet (l : List Nat) (n : Nat) : List Nat :=
  if memNat l n then l else l ++ [n]

/-- Python `min` over the available-DCA set (`none` on the empty set, where
Python would raise; the caller tests emptiness first). -/
def minList : List Nat → Option Nat
  | [] => none
  | n :: rest =>
    match minList rest with
    | none => some n
    | some m => some (min n m)

/-- Dictionary lookup (`d[k]` / `d.get(k)`) on an association list. -/
def lookupKey : List (String × Nat) → String → Option Nat
  | [], _ => none
  | (k', v) :: rest, k => if k' = k then some v else lookupKey rest k

/-- Channel-map lookup (`character_channels.get(character)`). -/
def lookupStr : List (String × String) → String → Option String
  | [], _ => none
  | (k', v) :: rest, k => if k' = k then some v else lookupStr rest k

/-- Dictionary store `d[k] = v`: replace in place if the key exists
(keeping its position, as Python dicts do), otherwise append. -/
def dictSet : List (String × Nat) → String → Nat → List (String × Nat)
  | [], k, v => [(k, v)]
  | (k', v') :: rest, k, v =>
    if k' = k then (k, v) :: rest else (k', v') :: dictSet rest k v

/-- Python `del d[k]`: drop the (first) pair with the given key. -/
def delKey : List (String × Nat) → String → List (String × Nat)
  | [], _ => []
  | (k', v) :: rest, k => if k' = k then rest else (k', v) :: delKey rest k

/-- Keys of an association list, in order. -/
def keysOf (l : List (String × Nat)) : List String :=
  l.map Prod.fst

/-- Slot numbers bound by an assignment, in order. -/
def valsOf (l : List (String × Nat)) : List Nat :=
  l.map Prod.snd

/-- String join `', '.join(l)`-style with an arbitrary separator. -/
def joinSep (sep : String) : List String → String
  | [] => ""
  | [s] => s
  | s :: rest => s ++ sep ++ joinSep sep rest

/-- Lexicographic comparison of strings by code point, as Python `<=`. -/
def lexLe : List Char → List Char → Bool
  | [], _ => true
  | _ :: _, [] => false
  | a :: as, b :: bs =>
    if a.toNat < b.toNat then true
    else if b.toNat < a.toNat then false
    else lexLe as bs

/-- Insertion into an ascending list, for `sortStrs`. -/
def insertStr (s : String) : List String → List String
  | [] => [s]
  | t :: rest => if lexLe s.data t.data then s :: t :: rest else t :: insertStr s rest

/-- Python `sorted` on a set of strings (ascending code-point order). -/
def sortStrs : List String → List String
  | [] => []
  | s :: rest => insertStr s (sortStrs rest)

/-- Digit-string value, for the page marker (`int(re.search(r'\d+', t).group())`). -/
def digitsToNat : List Char → Nat → Nat
  | [], acc => acc
  | c :: rest, acc => digitsToNat rest (acc * 10 + (c.toNat - 48))

/-- Page-marker test and value: Python `re.match(r'^Page \d+$', text)` followed
by extraction of the (ASCII) digit run. -/
def parsePageNum (s : String) : Option Nat :=
  match s.data with
  | 'P' :: 'a' :: 'g' :: 'e' :: ' ' :: rest =>
    if rest ≠ [] ∧ rest.all Char.isDigit then some (digitsToNat rest 0) else none
  | _ => none

/-- Preview extractor `get_line_preview_start`: text of the first Dialogue
element, truncated to `length` characters plus an ellipsis when longer. -/
def get_line_preview_start : List Element → Nat → Option String
  | [], _ => none
  | e :: rest, length =>
    if e.element_type = "Dialogue" then
      some (if length < e.element_text.data.length
            then pyTrunc e.element_text length ++ "..."
            else e.element_text)
    else get_line_preview_start rest length

/-- Preview extractor `get_line_preview_end`: text of the last Dialogue
element, keeping the final `length` characters behind an ellipsis when
longer. -/
def get_line_preview_end (script : List Element) (length : Nat) : Option String :=
  match script.reverse.find? (fun e => e.element_type = "Dialogue") with
  | none => none
  | some e =>
    some (if length < e.element_text.data.length
          then "..." ++ pyLastChars e.element_text length
          else e.element_text)

/-- Rendering of an optional preview inside an f-string: Python formats the
`None` returned on a missing preview as the text `None`. -/
def optText : Option String → String
  | none => "None"
  | some s => s

/-- First speakers of the upcoming scene: names (stripped) of the first
Character heading after a scene boundary, or the empty set if another
Scene Heading comes first. -/
def firstSpeakers : List Element → List String
  | [] => []
  | e :: rest =>
    if e.element_type = "Character" then (split_characters e.element_text).map pyStrip
    else if e.element_type = "Scene Heading" then []
    else firstSpeakers rest

/-- Cue record, restricted to the fields the allocator writes: `number`,
`point`, `name`, and the twelve slot channel/label fields
(`dca01Channels..dca12Channels`, `dca01Label..dca12Label`, here as two
12-entry lists indexed by slot number minus one; every field of the Python
`Cue` model defaults to `None`, so copying only non-`None` snapshot entries
onto a fresh record equals copying the whole snapshot lists). -/
structure Cue where
  number : Nat
  point : Nat
  name : String
  channels : List (Option String)
  labels : List (Option String)
deriving DecidableEq, Repr

/-- Write to the snapshot entry of slot `dca` (slots are numbered 1..12). -/
def setSlot (l : List (Option String)) (dca : Nat) (v : Option String) :
    List (Option String) :=
  l.set (dca - 1) v

/-- Allocator state of `generate_dca_cues`: the emitted cues, the set of
unmuted characters (`active_mics`), the character-to-DCA dictionary
(`dca_assignments`), the free-DCA set (`available_dcas`), the page and cue
counters, and the running 12-slot channel/label snapshot
(`current_dca_state`).  `fallback_used` is a ghost flag recording that the
pool-exhaustion fallback fired (the "correctness warning" of the spec); no
other field depends on it. -/
structure AllocState where
  cues : List Cue
  active_mics : List String
  dca_assignments : List (String × Nat)
  available_dcas : List Nat
  page : Nat
  cue_number : Nat
  chanState : List (Option String)
  labelState : List (Option String)
  fallback_used : Bool
deriving DecidableEq, Repr

/-- The twelve slot numbers. -/
def dcaRange : List Nat := [1, 2, 3, 4, 5, 6, 7, 8, 9, 10, 11, 12]

/-- Initial allocator state. -/
def initState : AllocState :=
  { cues := []
    active_mics := []
    dca_assignments := []
    available_dcas := dcaRange
    page := 0
    cue_number := 1
    chanState := List.replicate 12 none
    labelState := List.replicate 12 none
    fallback_used := false }

/-- Mute application (the `Apply all mute changes` block, identical at scene
boundaries and character headings): clear the character's slot channel (when
the channel map gives it a non-empty channel) and label in both the cue under
construction and the running snapshot, free the DCA, and drop the character
from the assignment and the active set.  On reachable states the assignment
lookup cannot fail (`keysOf dca_assignments = active_mics`). -/
def applyMute (chmap : List (String × String)) (acc : Cue × AllocState)
    (character : String) : Cue × AllocState :=
  let cue := acc.1
  let st := acc.2
  let dca := (lookupKey st.dca_assignments character).getD 0
  let channel := (lookupStr chmap character).getD ""
  let cue1 := if channel ≠ "" then { cue with channels := setSlot cue.channels dca none } else cue
  let st1 := if channel ≠ "" then { st with chanState := setSlot st.chanState dca none } else st
  let cue2 := { cue1 with labels := setSlot cue1.labels dca none }
  let st2 := { st1 with
    labelState := setSlot st1.labelState dca none
    available_dcas := addNatSet st1.available_dcas dca
    dca_assignments := delKey st1.dca_assignments character
    active_mics := eraseStr st1.active_mics character }
  (cue2, st2)

/-- Unmute application (the `Apply all unmute changes` block): write the
character's channel mapping (when present and non-empty) and its name as the
label into its bound slot, in both the cue and the running snapshot; with no
usable channel only the label is written. -/
def applyUnmute (chmap : List (String × String)) (acc : Cue × AllocState)
    (character : String) : Cue × AllocState :=
  let cue := acc.1
  let st := acc.2
  let dca := (lookupKey st.dca_assignments character).getD 0
  match lookupStr chmap character with
  | some channel =>
    if channel ≠ "" then
      ({ cue with
           channels := setSlot cue.channels dca (some channel)
           labels := setSlot cue.labels dca (some character) },
       { st with
           chanState := setSlot st.chanState dca (some channel)
           labelState := setSlot st.labelState dca (some character) })
    else
      ({ cue with labels := setSlot cue.labels dca (some character) },
       { st with labelState := setSlot st.labelState dca (some character) })
  | none =>
    ({ cue with labels := setSlot cue.labels dca (some character) },
     { st with labelState := setSlot st.labelState dca (some character) })

/-- One iteration of the unmute pass (`Process each character in this dialogue
block`): strip and truncate the raw name to 12 characters; if it is not yet
active, bind the lowest free DCA (or fall back to DCA 1 when the pool is
exhausted, raising the ghost warning flag), record the assignment, and append
the character to the active set and the to-unmute list. -/
def assignChar (acc : AllocState × List String) (character0 : String) :
    AllocState × List String :=
  let st := acc.1
  let toUnmute := acc.2
  let character := pyTrunc (pyStrip character0) 12
  if memStr st.active_mics character then (st, toUnmute)
  else
    match minList st.available_dcas with
    | some m =>
      ({ st with
           available_dcas := eraseNat st.available_dcas m
           dca_assignments := dictSet st.dca_assignments character m
           active_mics := st.active_mics ++ [character] },
       toUnmute ++ [character])
    | none =>
      ({ st with
           dca_assignments := dictSet st.dca_assignments character 1
           active_mics := st.active_mics ++ [character]
           fallback_used := true },
       toUnmute ++ [character])

/-- Cue emission (`cues.append(cue)` plus `cue_number += 1`): append the cue
under construction and bump the counter. -/
def emitCue (res : Cue × AllocState) : AllocState :=
  { res.2 with cues := res.2.cues ++ [res.1], cue_number := res.2.cue_number + 1 }

/-- Scene-boundary decision point (`Handle scene transitions`): mute every
active character that is not among the first speakers of the upcoming scene;
when anything needs muting, emit exactly one cue carrying the full updated
snapshot, otherwise emit nothing. -/
def sceneStep (chmap : List (String × String)) (st : AllocState)
    (past rest : List Element) : AllocState :=
  let fs := firstSpeakers rest
  let toMute := st.active_mics.filter (fun c => !(memStr fs c))
  if toMute.isEmpty then st
  else
    let muteNames := joinSep ", " (sortStrs toMute)
    let nm := "p" ++ toString st.page ++ " -" ++ muteNames ++ "- Scene Change - "
                ++ optText (get_line_preview_end past 30)
    let cue0 : Cue :=
      { number := st.cue_number, point := 0, name := nm
        channels := st.chanState, labels := st.labelState }
    emitCue (toMute.foldl (applyMute chmap) (cue0, st))

/-- Character-heading decision point (`Handle character dialogue`): run the
unmute pass over the heading's names, then the mute pass over the active set
(liveness-checking every active character that is not currently speaking), and
emit one cue when either list is non-empty.  `perm` is the iteration order of
the Python set `active_mics` in the mute pass; it is a parameter because that
order is observable in the emitted cue name and CPython randomizes string
hashes (and hence set order) across processes. -/
def charStep (chmap : List (String × String)) (n : Nat)
    (perm : List String → List String) (st : AllocState) (e : Element)
    (rest : List Element) : AllocState :=
  let characters := split_characters e.element_text
  let acc := characters.foldl assignChar (st, [])
  let st1 := acc.1
  let toUnmute := acc.2
  let currentlySpeaking := characters.map pyStrip
  let toMute := (perm st1.active_mics).filter
    (fun a => !(memStr currentlySpeaking a) && !(speaks_within rest a n false))
  if toUnmute.isEmpty && toMute.isEmpty then st1
  else
    let unmuteNames := joinSep ", " (toUnmute.map (fun c => "+" ++ c))
    let muteNames := joinSep ", " (toMute.map (fun c => "-" ++ c))
    let preview := optText (get_line_preview_start rest 30)
    let cueName :=
      if !toUnmute.isEmpty && !toMute.isEmpty then
        "p" ++ toString st1.page ++ " " ++ unmuteNames ++ " " ++ muteNames
          ++ ": \"" ++ preview ++ "\""
      else if !toUnmute.isEmpty then
        "p" ++ toString st1.page ++ " " ++ unmuteNames ++ ": \"" ++ preview ++ "\""
      else
        "p" ++ toString st1.page ++ " " ++ muteNames ++ ": \"" ++ preview ++ "\""
    let cue0 : Cue :=
      { number := st1.cue_number, point := 0, name := cueName
        channels := st1.chanState, labels := st1.labelState }
    emitCue (toMute.foldl (applyMute chmap) (toUnmute.foldl (applyUnmute chmap) (cue0, st1)))

/-- Loop body of `generate_dca_cues` for one element: a page-marker Comment
updates the page counter; a Scene Heading runs the boundary decision point
(with the processed prefix `past` available for the trailing preview); a
Character heading runs the dialogue decision point (with the remaining
elements `rest` available to the liveness checker); any other element is
passed over. -/
def stepElem (chmap : List (String × String)) (n : Nat)
    (perm : List String → List String) (past : List Element) (st : AllocState)
    (e : Element) (rest : List Element) : AllocState :=
  if e.element_type = "Comment" ∧ (parsePageNum e.element_text).isSome then
    { st with page := (parsePageNum e.element_text).getD st.page }
  else if e.element_type = "Scene Heading" then sceneStep chmap st past rest
  else if e.element_type = "Character" then charStep chmap n perm st e rest
  else st

/-- The single pass of `generate_dca_cues` over the element sequence,
threading the allocator state and the processed prefix. -/
def runFrom (chmap : List (String × String)) (n : Nat)
    (perm : List String → List String) :
    List Element → AllocState → List Element → AllocState
  | _, st, [] => st
  | past, st, e :: rest =>
    runFrom chmap n perm (past ++ [e]) (stepElem chmap n perm past st e rest) rest

/-- Every allocator state the pass goes through, in order (the state before
the first element, after each element, up to the final state). -/
def traceStates (chmap : List (String × String)) (n : Nat)
    (perm : List String → List String) :
    List Element → AllocState → List Element → List AllocState
  | _, st, [] => [st]
  | past, st, e :: rest =>
    st :: traceStates chmap n perm (past ++ [e])
      (stepElem chmap n perm past st e rest) rest

/-- The identity iteration order (insertion order) for the active set. -/
def idPerm : List String → List String := fun l => l

/-- Cue generator `generate_dca_cues`, parameterized by the mute-pass
iteration order of the active set (see `charStep`). -/
def generate_dca_cues_with (perm : List String → List String)
    (chmap : List (String × String)) (elements : List Element)
    (max_dialogues_ahead : Nat) : List Cue :=
  (runFrom chmap max_dialogues_ahead perm [] initState elements).cues

/-- Cue generator `generate_dca_cues` with the canonical (insertion) iteration
order. -/
def generate_dca_cues (chmap : List (String × String)) (elements : List Element)
    (max_dialogues_ahead : Nat) : List Cue :=
  generate_dca_cues_with idPerm chmap elements max_dialogues_ahead

/-- The trace of `generate_dca_cues` from the initial state. -/
def allocTrace (chmap : List (String × String)) (n : Nat)
    (elements : List Element) : List AllocState :=
  traceStates chmap n idPerm [] initState elements

/-! ## Basic lemmas about the set / dictionary primitives -/

theorem memStr_iff (l : List String) (s : String) : memStr l s = true ↔ s ∈ l := by
  induction l with
  | nil => simp [memStr]
  | cons a rest ih =>
    by_cases h : a = s
    · simp [memStr, h]
    · simp [memStr, h, ih]
      intro he; exact absurd he.symm h

theorem memNat_iff (l : List Nat) (n : Nat) : memNat l n = true ↔ n ∈ l := by
  induction l with
  | nil => simp [memNat]
  | cons a rest ih =>
    by_cases h : a = n
    · simp [memNat, h]
    · simp [memNat, h, ih]
      intro he; exact absurd he.symm h

theorem mem_eraseStr (l : List String) (t x : String) (h : x ∈ eraseStr l t) : x ∈ l := by
  induction l with
  | nil => simpa [eraseStr] using h
  | cons a rest ih =>
    by_cases ha : a = t
    · simp [eraseStr, ha] at h
      exact List.mem_cons_of_mem _ h
    · simp [eraseStr, ha] at h
      rcases h with h | h
      · simp [h]
      · exact List.mem_cons_of_mem _ (ih h)

theorem mem_eraseStr_of_ne (l : List String) (t x : String) (hx : x ∈ l) (hne : x ≠ t) :
    x ∈ eraseStr l t := by
  induction l with
  | nil => simp at hx
  | cons a rest ih =>
    by_cases ha : a = t
    · simp [eraseStr, ha]
      rcases List.mem_cons.mp hx with h | h
      · exact absurd (h.trans ha) hne
      · exact h
    · simp [eraseStr, ha]
      rcases List.mem_cons.mp hx with h | h
      · exact Or.inl h
      · exact Or.inr (ih h)

theorem nodup_eraseStr (l : List String) (t : String) (h : l.Nodup) :
    (eraseStr l t).Nodup := by
  induction l with
  | nil => simp [eraseStr]
  | cons a rest ih =>
    rcases List.nodup_cons.mp h with ⟨ha, hrest⟩
    by_cases hat : a = t
    · simpa [eraseStr, hat] using hrest
    · simp only [eraseStr, if_neg hat]
      refine List.nodup_cons.mpr ⟨fun hmem => ha (mem_eraseStr rest t a hmem), ih hrest⟩

theorem not_mem_eraseStr_self (l : List String) (t : String) (h : l.Nodup) :
    t ∉ eraseStr l t := by
  induction l with
  | nil => simp [eraseStr]
  | cons a rest ih =>
    rcases List.nodup_cons.mp h with ⟨ha, hrest⟩
    by_cases hat : a = t
    · simp only [eraseStr, if_pos hat]
      subst hat; exact ha
    · simp only [eraseStr, if_neg hat]
      intro hmem
      rcases List.mem_cons.mp hmem with h | h
      · exact hat h.symm
      · exact ih hrest h

theorem keysOf_delKey (l : List (String × Nat)) (k : String) :
    keysOf (delKey l k) = eraseStr (keysOf l) k := by
  induction l with
  | nil => simp [delKey, keysOf, eraseStr]
  | cons p rest ih =>
    rcases p with ⟨k', v⟩
    by_cases h : k' = k
    · simp [delKey, keysOf, eraseStr, h]
    · simp [delKey, keysOf, eraseStr, h]
      simpa [keysOf] using ih

theorem dictSet_fresh (l : List (String × Nat)) (k : String) (v : Nat)
    (h : k ∉ keysOf l) : dictSet l k v = l ++ [(k, v)] := by
  induction l with
  | nil => simp [dictSet]
  | cons p rest ih =>
    rcases p with ⟨k', v'⟩
    have hne : ¬ k' = k := by
      intro he; apply h; simp [keysOf, he]
    have h2 : k ∉ keysOf rest := by
      intro hm; apply h; simp [keysOf] at hm ⊢
      exact Or.inr hm
    simp [dictSet, hne, ih h2]

/-! ## Cue-list plumbing lemmas -/

theorem applyMute_cues (chmap : List (String × String)) (acc : Cue × AllocState)
    (c : String) : ((applyMute chmap acc c).2).cues = acc.2.cues := by
  simp only [applyMute]
  split <;> rfl

theorem applyUnmute_cues (chmap : List (String × String)) (acc : Cue × AllocState)
    (c : String) : ((applyUnmute chmap acc c).2).cues = acc.2.cues := by
  simp only [applyUnmute]
  split
  · split <;> rfl
  · rfl

theorem foldl_applyMute_cues (chmap : List (String × String)) :
    ∀ (l : List String) (acc : Cue × AllocState),
      ((l.foldl (applyMute chmap) acc).2).cues = acc.2.cues := by
  intro l
  induction l with
  | nil => intro acc; rfl
  | cons c rest ih =>
    intro acc
    simp only [List.foldl_cons]
    rw [ih (applyMute chmap acc c), applyMute_cues]

theorem foldl_applyUnmute_cues (chmap : List (String × String)) :
    ∀ (l : List String) (acc : Cue × AllocState),
      ((l.foldl (applyUnmute chmap) acc).2).cues = acc.2.cues := by
  intro l
  induction l with
  | nil => intro acc; rfl
  | cons c rest ih =>
    intro acc
    simp only [List.foldl_cons]
    rw [ih (applyUnmute chmap acc c), applyUnmute_cues]

theorem assignChar_cues (acc : AllocState × List String) (c : String) :
    ((assignChar acc c).1).cues = acc.1.cues := by
  simp only [assignChar]
  split
  · rfl
  · split <;> rfl

theorem foldl_assignChar_cues :
    ∀ (l : List String) (acc : AllocState × List String),
      ((l.foldl assignChar acc).1).cues = acc.1.cues := by
  intro l
  induction l with
  | nil => intro acc; rfl
  | cons c rest ih =>
    intro acc
    simp only [List.foldl_cons]
    rw [ih (assignChar acc c), assignChar_cues]

theorem emitCue_cues_exists (res : Cue × AllocState) (base : List Cue)
    (h : res.2.cues = base) : ∃ c, (emitCue res).cues = base ++ [c] :=
  ⟨res.1, by simp [emitCue, h]⟩

theorem sceneStep_cues (chmap : List (String × String)) (st : AllocState)
    (past rest : List Element) :
    (sceneStep chmap st past rest).cues = st.cues ∨
      ∃ c, (sceneStep chmap st past rest).cues = st.cues ++ [c] := by
  simp only [sceneStep]
  split
  · exact Or.inl rfl
  · exact Or.inr (emitCue_cues_exists _ _ (foldl_applyMute_cues _ _ _))

theorem charStep_cues (chmap : List (String × String)) (n : Nat)
    (perm : List String → List String) (st : AllocState) (e : Element)
    (rest : List Element) :
    (charStep chmap n perm st e rest).cues = st.cues ∨
      ∃ c, (charStep chmap n perm st e rest).cues = st.cues ++ [c] := by
  simp only [charStep]
  split
  · exact Or.inl (by rw [foldl_assignChar_cues])
  · refine Or.inr (emitCue_cues_exists _ _ ?_)
    rw [foldl_applyMute_cues, foldl_applyUnmute_cues, foldl_assignChar_cues]

theorem stepElem_cues (chmap : List (String × String)) (n : Nat)
    (perm : List String → List String) (past : List Element) (st : AllocState)
    (e : Element) (rest : List Element) :
    (stepElem chmap n perm past st e rest).cues = st.cues ∨
      ∃ c, (stepElem chmap n perm past st e rest).cues = st.cues ++ [c] := by
  simp only [stepElem]
  split
  · exact Or.inl rfl
  · split
    · exact sceneStep_cues chmap st past rest
    · split
      · exact charStep_cues chmap n perm st e rest
      · exact Or.inl rfl

theorem runFrom_cues_length (chmap : List (String × String)) (n : Nat)
    (perm : List String → List String) :
    ∀ (l past : List Element) (st : AllocState),
      (runFrom chmap n perm past st l).cues.length ≤ st.cues.length + l.length := by
  intro l
  induction l with
  | nil => intro past st; simp [runFrom]
  | cons e rest ih =>
    intro past st
    simp only [runFrom]
    refine le_trans (ih (past ++ [e]) (stepElem chmap n perm past st e rest)) ?_
    rcases stepElem_cues chmap n perm past st e rest with h | ⟨c, h⟩
    · rw [h]; simp only [List.length_cons]; omega
    · rw [h]; simp only [List.length_append, List.length_cons, List.length_nil]; omega

/-- C9: for every finite element sequence the allocator's single pass is a
total function (it is defined by structural recursion on the sequence, as are
the lookahead checker and the preview extractors it calls), and it emits at
most one cue per element, so the output is bounded by the input length. -/
theorem generate_dca_cues_total_and_bounded (chmap : List (String × String))
    (elements : List Element) (n : Nat) :
    (generate_dca_cues chmap elements n).length ≤ elements.length := by
  have h := runFrom_cues_length chmap n idPerm elements [] initState
  simpa [generate_dca_cues, generate_dca_cues_with, initState] using h

/-! ## Snapshot pairing: the cue under construction always mirrors the
running slot snapshot -/

theorem applyMute_pair (chmap : List (String × String)) (acc : Cue × AllocState)
    (c : String) (h1 : acc.1.channels = acc.2.chanState)
    (h2 : acc.1.labels = acc.2.labelState) :
    ((applyMute chmap acc c).1).channels = ((applyMute chmap acc c).2).chanState ∧
      ((applyMute chmap acc c).1).labels = ((applyMute chmap acc c).2).labelState := by
  by_cases hch : (lookupStr chmap c).getD "" ≠ ""
  · simp [applyMute, hch, h1, h2]
  · simp [applyMute, hch, h1, h2]

theorem foldl_applyMute_pair (chmap : List (String × String)) :
    ∀ (l : List String) (acc : Cue × AllocState),
      acc.1.channels = acc.2.chanState → acc.1.labels = acc.2.labelState →
      ((l.foldl (applyMute chmap) acc).1).channels
          = ((l.foldl (applyMute chmap) acc).2).chanState ∧
        ((l.foldl (applyMute chmap) acc).1).labels
          = ((l.foldl (applyMute chmap) acc).2).labelState := by
  intro l
  induction l with
  | nil => intro acc h1 h2; exact ⟨h1, h2⟩
  | cons c rest ih =>
    intro acc h1 h2
    simp only [List.foldl_cons]
    have h := applyMute_pair chmap acc c h1 h2
    exact ih (applyMute chmap acc c) h.1 h.2

theorem applyUnmute_pair (chmap : List (String × String)) (acc : Cue × AllocState)
    (c : String) (h1 : acc.1.channels = acc.2.chanState)
    (h2 : acc.1.labels = acc.2.labelState) :
    ((applyUnmute chmap acc c).1).channels = ((applyUnmute chmap acc c).2).chanState ∧
      ((applyUnmute chmap acc c).1).labels = ((applyUnmute chmap acc c).2).labelState := by
  rcases hl : lookupStr chmap c with _ | ch
  · simp [applyUnmute, hl, h1, h2]
  · by_cases hch : ch ≠ ""
    · simp [applyUnmute, hl, hch, h1, h2]
    · simp [applyUnmute, hl, hch, h1, h2]

theorem foldl_applyUnmute_pair (chmap : List (String × String)) :
    ∀ (l : List String) (acc : Cue × AllocState),
      acc.1.channels = acc.2.chanState → acc.1.labels = acc.2.labelState →
      ((l.foldl (applyUnmute chmap) acc).1).channels
          = ((l.foldl (applyUnmute chmap) acc).2).chanState ∧
        ((l.foldl (applyUnmute chmap) acc).1).labels
          = ((l.foldl (applyUnmute chmap) acc).2).labelState := by
  intro l
  induction l with
  | nil => intro acc h1 h2; exact ⟨h1, h2⟩
  | cons c rest ih =>
    intro acc h1 h2
    simp only [List.foldl_cons]
    have h := applyUnmute_pair chmap acc c h1 h2
    exact ih (applyUnmute chmap acc c) h.1 h.2

theorem emitCue_snapshot (res : Cue × AllocState) (base : List Cue)
    (hc : res.2.cues = base) (h1 : res.1.channels = res.2.chanState)
    (h2 : res.1.labels = res.2.labelState) :
    ∃ c, (emitCue res).cues = base ++ [c] ∧
      c.channels = (emitCue res).chanState ∧ c.labels = (emitCue res).labelState :=
  ⟨res.1, by simp [emitCue, hc], by simp [emitCue, h1], by simp [emitCue, h2]⟩

/-- C3: every step of the allocator either emits no cue or emits exactly one
cue whose twelve slot-channel and twelve slot-label fields equal the running
snapshot (`current_dca_state`) as it stands at the moment of emission — the
cue is built from the full snapshot and every slot write during the step is
applied to the cue and the snapshot in lockstep.  Hence every cue in the
output is a complete snapshot of the state the allocator held when emitting
it, and replaying any single cue reconstructs that state. -/
theorem cue_snapshot_complete (chmap : List (String × String)) (n : Nat)
    (perm : List String → List String) (past : List Element) (st : AllocState)
    (e : Element) (rest : List Element) :
    (stepElem chmap n perm past st e rest).cues = st.cues ∨
      ∃ c, (stepElem chmap n perm past st e rest).cues = st.cues ++ [c] ∧
        c.channels = (stepElem chmap n perm past st e rest).chanState ∧
        c.labels = (stepElem chmap n perm past st e rest).labelState := by
  simp only [stepElem]
  split
  · exact Or.inl rfl
  · split
    · simp only [sceneStep]
      split
      · exact Or.inl rfl
      · refine Or.inr (emitCue_snapshot _ _ (foldl_applyMute_cues _ _ _) ?_ ?_)
        · exact (foldl_applyMute_pair _ _ _ rfl rfl).1
        · exact (foldl_applyMute_pair _ _ _ rfl rfl).2
    · split
      · simp only [charStep]
        split
        · exact Or.inl (by rw [foldl_assignChar_cues])
        · refine Or.inr (emitCue_snapshot _ _ ?_ ?_ ?_)
          · rw [foldl_applyMute_cues, foldl_applyUnmute_cues, foldl_assignChar_cues]
          · exact (foldl_applyMute_pair _ _ _
              (foldl_applyUnmute_pair _ _ _ rfl rfl).1
              (foldl_applyUnmute_pair _ _ _ rfl rfl).2).1
          · exact (foldl_applyMute_pair _ _ _
              (foldl_applyUnmute_pair _ _ _ rfl rfl).1
              (foldl_applyUnmute_pair _ _ _ rfl rfl).2).2
      · exact Or.inl rfl

/-- C7 (amended): an element whose kind is outside
{Scene Heading, Character, Dialogue, Comment} is silently passed over by the
allocator's loop — the state is unchanged and no cue is emitted; the run is
not rejected (the source's `for` body has no branch, and no error path, for
such elements). -/
theorem unknown_kind_ignored (chmap : List (String × String)) (n : Nat)
    (perm : List String → List String) (past : List Element) (st : AllocState)
    (e : Element) (rest : List Element)
    (h1 : e.element_type ≠ "Scene Heading") (h2 : e.element_type ≠ "Character")
    (h3 : e.element_type ≠ "Comment") (_h4 : e.element_type ≠ "Dialogue") :
    stepElem chmap n perm past st e rest = st := by
  simp [stepElem, h1, h2, h3]

/-- Witness for `unknown_kind_ignored` at a concrete unknown-kind element. -/
theorem unknown_kind_ignored_witness :
    stepElem [] 7 idPerm [] initState ⟨"Transition", "CUT TO:"⟩ [] = initState :=
  unknown_kind_ignored [] 7 idPerm [] initState ⟨"Transition", "CUT TO:"⟩ []
    (by decide) (by decide) (by decide) (by decide)

/-- C7 (counterexample to the claim as stated): a run on a sequence
containing an element of unknown kind ("Transition") is not rejected — it
completes normally, produces a non-empty cue list, and yields exactly the
cues of the same sequence with the unknown element removed. -/
theorem unknown_kind_not_rejected :
    generate_dca_cues []
        [⟨"Transition", "CUT TO:"⟩, ⟨"Character", "Aa"⟩, ⟨"Dialogue", "hi"⟩] 7
      = generate_dca_cues [] [⟨"Character", "Aa"⟩, ⟨"Dialogue", "hi"⟩] 7 ∧
    generate_dca_cues []
        [⟨"Transition", "CUT TO:"⟩, ⟨"Character", "Aa"⟩, ⟨"Dialogue", "hi"⟩] 7 ≠ [] := by
  constructor
  · decide
  · decide

/-- C8 (amended): the character name normalizer is a total function, and on
the empty input it returns the one-element list containing the empty name —
Python's `''.split(' & ')` is `['']`, and title-casing the empty string is
the empty string. -/
theorem split_characters_empty_singleton : split_characters "" = [""] := by decide

/-- C8 (counterexample to the claim as stated): the normalizer does not map
the empty input to the empty list. -/
theorem split_characters_empty_not_nil : split_characters "" ≠ [] := by decide

/-- Script exhibiting the mute-name order dependence: Aa and Ba are unmuted
together, then both are muted in the single cue emitted at Ca's heading. -/
def c5Script : List Element :=
  [⟨"Character", "Aa & Ba"⟩, ⟨"Dialogue", "hello there"⟩, ⟨"Character", "Ca"⟩]

/-- C5: the cue name emitted at a character heading joins the muted
characters in the iteration order of the Python set `active_mics`, which
CPython randomizes across processes (string hash randomization), so two
independent runs on the same script and channel map need not produce
byte-identical cue lists: with the insertion order the second cue of
`c5Script` is named "p0 +Ca -Aa, -Ba: ...", with the reversed order
"p0 +Ca -Ba, -Aa: ...".  (The scene-boundary path sorts the muted names —
`sorted(characters_to_mute)` — showing byte-identical output is the intent;
the character-heading path omits the sort.) -/
theorem cue_list_depends_on_set_iteration_order :
    generate_dca_cues_with idPerm [] c5Script 7
      ≠ generate_dca_cues_with List.reverse [] c5Script 7 := by decide

/-! ## The lookahead window -/

/-- Number of dialogue blocks (Character headings) in an element list. -/
def countCharacterBlocks : List Element → Nat
  | [] => 0
  | e :: rest =>
    (if e.element_type = "Character" then 1 else 0) + countCharacterBlocks rest

theorem speaksWithinAux_le_false (c : String) (n : Nat) :
    ∀ (l : List Element) (d : Nat) (fs : Bool), n ≤ d →
      speaksWithinAux c n l d fs = false := by
  intro l
  induction l with
  | nil => intro d fs _; rfl
  | cons e rest ih =>
    intro d fs hd
    simp [speaksWithinAux, hd]

theorem speaksWithinAux_through (Y : String) (n : Nat) (chY : Element)
    (post : List Element) (hty : chY.element_type = "Character")
    (hY : Y ∈ split_characters chY.element_text) :
    ∀ (pre : List Element) (d : Nat),
      (∀ e ∈ pre, e.element_type ≠ "Scene Heading") →
      (∀ e ∈ pre, e.element_type = "Character" → Y ∉ split_characters e.element_text) →
      speaksWithinAux Y n (pre ++ chY :: post) d true
        = if n ≤ d + countCharacterBlocks pre then false else true := by
  intro pre
  induction pre with
  | nil =>
    intro d _ _
    by_cases hd : n ≤ d
    · simp [speaksWithinAux, hd, countCharacterBlocks]
    · have h1 : chY.element_type ≠ "Scene Heading" := by rw [hty]; decide
      simp [speaksWithinAux, hd, h1, hty, hY, countCharacterBlocks]
  | cons e pre ih =>
    intro d hns hnc
    have hnse : e.element_type ≠ "Scene Heading" := hns e (by simp)
    have hns' : ∀ x ∈ pre, x.element_type ≠ "Scene Heading" :=
      fun x hx => hns x (List.mem_cons_of_mem _ hx)
    have hnc' : ∀ x ∈ pre, x.element_type = "Character" →
        Y ∉ split_characters x.element_text :=
      fun x hx => hnc x (List.mem_cons_of_mem _ hx)
    by_cases hd : n ≤ d
    · have hd2 : n ≤ d + countCharacterBlocks (e :: pre) :=
        le_trans hd (Nat.le_add_right _ _)
      simp [speaksWithinAux, hd, hd2]
    · by_cases hch : e.element_type = "Character"
      · have hni : Y ∉ split_characters e.element_text := hnc e (by simp) hch
        have harr : d + 1 + countCharacterBlocks pre
            = d + countCharacterBlocks (e :: pre) := by
          simp [countCharacterBlocks, hch]; omega
        rw [List.cons_append]
        rw [show speaksWithinAux Y n (e :: (pre ++ chY :: post)) d true
              = speaksWithinAux Y n (pre ++ chY :: post) (d + 1) true from by
            simp [speaksWithinAux, hd, hnse, hch, hni]]
        rw [ih (d + 1) hns' hnc', harr]
      · have harr : countCharacterBlocks (e :: pre) = countCharacterBlocks pre := by
          simp [countCharacterBlocks, hch]
        rw [List.cons_append]
        simp only [speaksWithinAux, if_neg hd, if_neg hnse, if_neg hch]
        rw [ih d hns' hnc', harr]

/-- C2: exact lookahead window boundary.  Read "Y's next Character heading is
at dialogue-block offset `k`" as: exactly `k` Character headings (dialogue
blocks), none naming Y, lie strictly between the current decision point and
Y's next heading, with no intervening Scene Heading.  Then `speaks_within`
(called on the elements after the decision point, `skip_first = false`) is
false at offset `w` (the `dialogues` counter reaches the window) and true at
offset `w - 1` (Y's heading is reached with the counter at `w - 1 < w`), so
at the decision point Y is muted in the first case and stays unmuted in the
second. -/
theorem speaks_within_window_boundary (pre post : List Element) (chY : Element)
    (Y : String) (w : Nat) (hw : 0 < w)
    (hty : chY.element_type = "Character")
    (hY : Y ∈ split_characters chY.element_text)
    (hns : ∀ e ∈ pre, e.element_type ≠ "Scene Heading")
    (hnc : ∀ e ∈ pre, e.element_type = "Character" → Y ∉ split_characters e.element_text) :
    (countCharacterBlocks pre = w →
        speaks_within (pre ++ chY :: post) Y w false = false) ∧
    (countCharacterBlocks pre = w - 1 →
        speaks_within (pre ++ chY :: post) Y w false = true) := by
  constructor <;> intro hcount
  · show speaksWithinAux Y w (pre ++ chY :: post) 0 true = false
    rw [speaksWithinAux_through Y w chY post hty hY pre 0 hns hnc]
    rw [if_pos (by omega)]
  · show speaksWithinAux Y w (pre ++ chY :: post) 0 true = true
    rw [speaksWithinAux_through Y w chY post hty hY pre 0 hns hnc]
    rw [if_neg (by omega)]

/-- Witness for `speaks_within_window_boundary`: with the default window 7,
seven intervening dialogue blocks mute Y, six keep Y live. -/
theorem speaks_within_window_boundary_witness :
    speaks_within
        (List.replicate 7 (⟨"Character", "Ba"⟩ : Element)
          ++ (⟨"Character", "Ya"⟩ : Element) :: []) "Ya" 7 false = false ∧
    speaks_within
        (List.replicate 6 (⟨"Character", "Ba"⟩ : Element)
          ++ (⟨"Character", "Ya"⟩ : Element) :: []) "Ya" 7 false = true :=
  ⟨(speaks_within_window_boundary (List.replicate 7 ⟨"Character", "Ba"⟩) []
      ⟨"Character", "Ya"⟩ "Ya" 7 (by decide) (by decide) (by decide)
      (by decide) (by decide)).1 (by decide),
   (speaks_within_window_boundary (List.replicate 6 ⟨"Character", "Ba"⟩) []
      ⟨"Character", "Ya"⟩ "Ya" 7 (by decide) (by decide) (by decide)
      (by decide) (by decide)).2 (by decide)⟩

/-! ## The skip_first flag -/

theorem speaksWithinAux_skip (c : String) (n : Nat) (ch : Element)
    (hch : ch.element_type = "Character") (post : List Element) :
    ∀ (pre : List Element) (d : Nat),
      (∀ e ∈ pre, e.element_type ≠ "Character") →
      speaksWithinAux c n (pre ++ ch :: post) d false
        = speaksWithinAux c n (pre ++ post) d true := by
  intro pre
  induction pre with
  | nil =>
    intro d _
    by_cases hd : n ≤ d
    · rw [speaksWithinAux_le_false c n _ d false hd,
        speaksWithinAux_le_false c n _ d true hd]
    · have h1 : ch.element_type ≠ "Scene Heading" := by rw [hch]; decide
      simp [speaksWithinAux, hd, h1, hch]
  | cons e pre ih =>
    intro d hpre
    have hnce : e.element_type ≠ "Character" := hpre e (by simp)
    have hpre' : ∀ x ∈ pre, x.element_type ≠ "Character" :=
      fun x hx => hpre x (List.mem_cons_of_mem _ hx)
    by_cases hd : n ≤ d
    · rw [speaksWithinAux_le_false c n _ d false hd,
        speaksWithinAux_le_false c n _ d true hd]
    · by_cases hsc : e.element_type = "Scene Heading"
      · simp [speaksWithinAux, hd, hsc]
      · rw [List.cons_append, List.cons_append]
        simp only [speaksWithinAux, if_neg hd, if_neg hsc, if_neg hnce]
        exact ih d hpre'

/-- C10: with `skip_first = true` the checker skips the first Character
heading entirely — its names are never tested for a match and it does not
count toward the `n` dialogue-block budget: on any list whose first Character
heading is `ch`, the result equals running the checker with
`skip_first = false` on the same list with `ch` deleted, for every character,
window, and heading text. -/
theorem speaks_within_skip_first (pre post : List Element) (ch : Element)
    (c : String) (n : Nat)
    (hpre : ∀ e ∈ pre, e.element_type ≠ "Character")
    (hch : ch.element_type = "Character") :
    speaks_within (pre ++ ch :: post) c n true
      = speaks_within (pre ++ post) c n false := by
  rw [speaks_within, speaks_within]
  exact speaksWithinAux_skip c n ch hch post pre 0 hpre

/-- Witness for `speaks_within_skip_first`: the first heading "Aa" is
invisible to the skipping search for "Aa". -/
theorem speaks_within_skip_first_witness :
    speaks_within
        [(⟨"Dialogue", "x"⟩ : Element), ⟨"Character", "Aa"⟩, ⟨"Character", "Ba"⟩]
        "Aa" 7 true
      = speaks_within [(⟨"Dialogue", "x"⟩ : Element), ⟨"Character", "Ba"⟩]
          "Aa" 7 false :=
  speaks_within_skip_first [⟨"Dialogue", "x"⟩] [⟨"Character", "Ba"⟩]
    ⟨"Character", "Aa"⟩ "Aa" 7 (by decide) (by decide)

/-! ## Scene boundaries -/

theorem stepElem_scene (chmap : List (String × String)) (n : Nat)
    (perm : List String → List String) (past : List Element) (st : AllocState)
    (e : Element) (rest : List Element) (hty : e.element_type = "Scene Heading") :
    stepElem chmap n perm past st e rest = sceneStep chmap st past rest := by
  have h1 : ¬ (e.element_type = "Comment" ∧ (parsePageNum e.element_text).isSome) := by
    rw [hty]; rintro ⟨hc, -⟩; exact absurd hc (by decide)
  simp [stepElem, h1, hty]

theorem stepElem_char (chmap : List (String × String)) (n : Nat)
    (perm : List String → List String) (past : List Element) (st : AllocState)
    (e : Element) (rest : List Element) (hty : e.element_type = "Character") :
    stepElem chmap n perm past st e rest = charStep chmap n perm st e rest := by
  have h1 : ¬ (e.element_type = "Comment" ∧ (parsePageNum e.element_text).isSome) := by
    rw [hty]; rintro ⟨hc, -⟩; exact absurd hc (by decide)
  have h2 : e.element_type ≠ "Scene Heading" := by rw [hty]; decide
  simp [stepElem, h1, h2, hty]

theorem emitCue_exists2 (res : Cue × AllocState) (base : List Cue)
    (act : List String) (hc : res.2.cues = base) (ha : res.2.active_mics = act) :
    ∃ cue, (emitCue res).cues = base ++ [cue] ∧ (emitCue res).active_mics = act :=
  ⟨res.1, by simp [emitCue, hc], by simp [emitCue, ha]⟩

theorem applyMute_active (chmap : List (String × String)) (acc : Cue × AllocState)
    (c : String) :
    ((applyMute chmap acc c).2).active_mics = eraseStr acc.2.active_mics c := by
  by_cases hch : (lookupStr chmap c).getD "" ≠ ""
  · simp [applyMute, hch]
  · simp [applyMute, hch]

theorem foldl_applyMute_active (chmap : List (String × String)) :
    ∀ (l : List String) (acc : Cue × AllocState),
      ((l.foldl (applyMute chmap) acc).2).active_mics
        = l.foldl eraseStr acc.2.active_mics := by
  intro l
  induction l with
  | nil => intro acc; rfl
  | cons c rest ih =>
    intro acc
    simp only [List.foldl_cons]
    rw [ih (applyMute chmap acc c), applyMute_active]

theorem foldl_eraseStr_cons (a : String) :
    ∀ (xs l : List String), (∀ x ∈ xs, x ≠ a) →
      List.foldl eraseStr (a :: l) xs = a :: List.foldl eraseStr l xs := by
  intro xs
  induction xs with
  | nil => intro l _; rfl
  | cons x xs ih =>
    intro l hxs
    have hxa : ¬ a = x := fun h => (hxs x (by simp)) h.symm
    simp only [List.foldl_cons, eraseStr, if_neg hxa]
    exact ih (eraseStr l x) (fun y hy => hxs y (List.mem_cons_of_mem _ hy))

theorem foldl_eraseStr_filter (p : String → Bool) :
    ∀ (l : List String), l.Nodup →
      List.foldl eraseStr l (l.filter (fun x => !(p x))) = l.filter p := by
  intro l
  induction l with
  | nil => intro _; rfl
  | cons a l ih =>
    intro hnd
    rcases List.nodup_cons.mp hnd with ⟨hal, hl⟩
    by_cases hp : p a
    · have h1 : (List.filter (fun x => !(p x)) (a :: l))
          = List.filter (fun x => !(p x)) l := by
        simp [List.filter, hp]
      have h2 : ∀ x ∈ List.filter (fun x => !(p x)) l, x ≠ a := by
        intro x hx hxa
        exact hal (hxa ▸ List.mem_of_mem_filter hx)
      rw [h1, foldl_eraseStr_cons a _ l h2, ih hl]
      simp [List.filter, hp]
    · have h1 : (List.filter (fun x => !(p x)) (a :: l))
          = a :: List.filter (fun x => !(p x)) l := by
        simp [List.filter, hp]
      have he : eraseStr (a :: l) a = l := by simp [eraseStr]
      rw [h1]
      simp only [List.foldl_cons, he]
      rw [ih hl]
      simp [List.filter, hp]

/-- C4: at a Scene Heading the allocator computes the upcoming scene's first
speakers and the set `to_mute` of active characters not among them.  If
`to_mute` is empty no cue is emitted and the state is untouched; otherwise
exactly one boundary cue is appended and afterwards precisely the active
characters among the first speakers survive — every other active character is
removed from the active set by that single cue, regardless of what the rest
of the script holds. -/
theorem scene_boundary_kill (chmap : List (String × String)) (n : Nat)
    (perm : List String → List String) (past : List Element) (st : AllocState)
    (e : Element) (rest : List Element)
    (hty : e.element_type = "Scene Heading") (hnd : st.active_mics.Nodup) :
    (st.active_mics.filter (fun c => !(memStr (firstSpeakers rest) c)) = [] →
        stepElem chmap n perm past st e rest = st) ∧
    (st.active_mics.filter (fun c => !(memStr (firstSpeakers rest) c)) ≠ [] →
        ∃ cue, (stepElem chmap n perm past st e rest).cues = st.cues ++ [cue] ∧
          (stepElem chmap n perm past st e rest).active_mics
            = st.active_mics.filter (fun c => memStr (firstSpeakers rest) c)) := by
  rw [stepElem_scene chmap n perm past st e rest hty]
  constructor
  · intro h
    simp [sceneStep, h]
  · intro h
    have hne : ¬ (st.active_mics.filter
        (fun c => !(memStr (firstSpeakers rest) c))).isEmpty = true := by
      rcases hl : st.active_mics.filter (fun c => !(memStr (firstSpeakers rest) c)) with
        _ | ⟨x, xs⟩
      · exact absurd hl h
      · simp [List.isEmpty]
    simp only [sceneStep, if_neg hne]
    refine emitCue_exists2 _ _ _ (foldl_applyMute_cues _ _ _) ?_
    rw [foldl_applyMute_active]
    exact foldl_eraseStr_filter (fun c => memStr (firstSpeakers rest) c) st.active_mics hnd

/-- Concrete pre-boundary state for the scene-boundary witness: Aa active on
DCA 1. -/
def c4State : AllocState :=
  { initState with
      active_mics := ["Aa"]
      dca_assignments := [("Aa", 1)]
      available_dcas := [2, 3, 4, 5, 6, 7, 8, 9, 10, 11, 12] }

/-- Witness for `scene_boundary_kill`: a boundary with no upcoming speaker
mutes Aa with exactly one cue. -/
theorem scene_boundary_kill_witness :
    (stepElem [] 7 idPerm [] c4State ⟨"Scene Heading", "INT. X"⟩ []).active_mics = [] ∧
    (stepElem [] 7 idPerm [] c4State ⟨"Scene Heading", "INT. X"⟩ []).cues.length = 1 := by
  obtain ⟨-, h2⟩ := scene_boundary_kill [] 7 idPerm [] c4State
    ⟨"Scene Heading", "INT. X"⟩ [] (by decide) (by decide)
  obtain ⟨cue, hc, ha⟩ := h2 (by decide)
  refine ⟨?_, ?_⟩
  · rw [ha]; decide
  · rw [hc]; simp [c4State, initState]

/-! ## The truncated-key invariant (basic well-formedness of the allocator
state) -/

/-- A string of the exact shape the unmute pass stores:
`character.strip()[:12]` of some raw heading name. -/
def truncatedKey (c : String) : Prop :=
  ∃ raw, c = pyTrunc (pyStrip raw) 12

theorem truncatedKey_length (c : String) (h : truncatedKey c) :
    c.data.length ≤ 12 := by
  rcases h with ⟨raw, hr⟩
  subst hr
  simp only [pyTrunc]
  exact le_trans (List.length_take_le _ _) (le_refl _)

/-- Basic well-formedness, preserved by every allocator step (fallback or
not): the assignment keys coincide with the active set (in order), the active
set is duplicate-free, and every active name is a stripped-and-truncated key. -/
def basicWF (st : AllocState) : Prop :=
  keysOf st.dca_assignments = st.active_mics ∧
  st.active_mics.Nodup ∧
  (∀ c ∈ st.active_mics, truncatedKey c)

theorem applyMute_assign (chmap : List (String × String)) (acc : Cue × AllocState)
    (c : String) :
    ((applyMute chmap acc c).2).dca_assignments
      = delKey acc.2.dca_assignments c := by
  by_cases hch : (lookupStr chmap c).getD "" ≠ ""
  · simp [applyMute, hch]
  · simp [applyMute, hch]

theorem applyMute_avail (chmap : List (String × String)) (acc : Cue × AllocState)
    (c : String) :
    ((applyMute chmap acc c).2).available_dcas
      = addNatSet acc.2.available_dcas
          ((lookupKey acc.2.dca_assignments c).getD 0) := by
  by_cases hch : (lookupStr chmap c).getD "" ≠ ""
  · simp [applyMute, hch]
  · simp [applyMute, hch]

theorem applyMute_fb (chmap : List (String × String)) (acc : Cue × AllocState)
    (c : String) :
    ((applyMute chmap acc c).2).fallback_used = acc.2.fallback_used := by
  by_cases hch : (lookupStr chmap c).getD "" ≠ ""
  · simp [applyMute, hch]
  · simp [applyMute, hch]

theorem applyUnmute_state (chmap : List (String × String)) (acc : Cue × AllocState)
    (c : String) :
    ((applyUnmute chmap acc c).2).dca_assignments = acc.2.dca_assignments ∧
    ((applyUnmute chmap acc c).2).active_mics = acc.2.active_mics ∧
    ((applyUnmute chmap acc c).2).available_dcas = acc.2.available_dcas ∧
    ((applyUnmute chmap acc c).2).fallback_used = acc.2.fallback_used := by
  rcases hl : lookupStr chmap c with _ | ch
  · simp [applyUnmute, hl]
  · by_cases hch : ch ≠ ""
    · simp [applyUnmute, hl, hch]
    · simp [applyUnmute, hl, hch]

theorem applyMute_basic (chmap : List (String × String)) (acc : Cue × AllocState)
    (c : String) (h : basicWF acc.2) : basicWF ((applyMute chmap acc c).2) := by
  rcases h with ⟨hk, hnd, htr⟩
  refine ⟨?_, ?_, ?_⟩
  · rw [applyMute_assign, applyMute_active, keysOf_delKey, hk]
  · rw [applyMute_active]; exact nodup_eraseStr _ _ hnd
  · rw [applyMute_active]
    intro x hx
    exact htr x (mem_eraseStr _ _ _ hx)

theorem foldl_applyMute_basic (chmap : List (String × String)) :
    ∀ (l : List String) (acc : Cue × AllocState), basicWF acc.2 →
      basicWF ((l.foldl (applyMute chmap) acc).2) := by
  intro l
  induction l with
  | nil => intro acc h; exact h
  | cons c rest ih =>
    intro acc h
    simp only [List.foldl_cons]
    exact ih _ (applyMute_basic chmap acc c h)

theorem foldl_applyUnmute_basic (chmap : List (String × String)) :
    ∀ (l : List String) (acc : Cue × AllocState), basicWF acc.2 →
      basicWF ((l.foldl (applyUnmute chmap) acc).2) := by
  intro l
  induction l with
  | nil => intro acc h; exact h
  | cons c rest ih =>
    intro acc h
    simp only [List.foldl_cons]
    refine ih _ ?_
    rcases applyUnmute_state chmap acc c with ⟨h1, h2, -, -⟩
    rcases h with ⟨hk, hnd, htr⟩
    exact ⟨by rw [h1, h2, hk], by rw [h2]; exact hnd, by rw [h2]; exact htr⟩

theorem assignChar_basic (acc : AllocState × List String) (c : String)
    (h : basicWF acc.1) : basicWF ((assignChar acc c).1) := by
  rcases h with ⟨hk, hnd, htr⟩
  by_cases hm : memStr acc.1.active_mics (pyTrunc (pyStrip c) 12)
  · simpa [assignChar, hm] using ⟨hk, hnd, htr⟩
  · have hfresh : pyTrunc (pyStrip c) 12 ∉ keysOf acc.1.dca_assignments := by
      rw [hk]
      intro hmem
      exact hm ((memStr_iff _ _).mpr hmem)
    have hda : dictSet acc.1.dca_assignments (pyTrunc (pyStrip c) 12)
        (match minList acc.1.available_dcas with | some m => m | none => 1)
        = acc.1.dca_assignments
            ++ [(pyTrunc (pyStrip c) 12,
                 match minList acc.1.available_dcas with | some m => m | none => 1)] :=
      dictSet_fresh _ _ _ hfresh
    have hkeys : ∀ v, keysOf (acc.1.dca_assignments ++ [(pyTrunc (pyStrip c) 12, v)])
        = keysOf acc.1.dca_assignments ++ [pyTrunc (pyStrip c) 12] := by
      intro v; simp [keysOf]
    have hnotin : pyTrunc (pyStrip c) 12 ∉ acc.1.active_mics := by
      intro hmem; exact hm ((memStr_iff _ _).mpr hmem)
    have hnd' : (acc.1.active_mics ++ [pyTrunc (pyStrip c) 12]).Nodup := by
      refine List.Nodup.append hnd (by simp) ?_
      intro a ha hb
      simp at hb
      subst hb
      exact hnotin ha
    have htr' : ∀ x ∈ acc.1.active_mics ++ [pyTrunc (pyStrip c) 12], truncatedKey x := by
      intro x hx
      rcases List.mem_append.mp hx with hx | hx
      · exact htr x hx
      · simp at hx
        exact ⟨c, hx⟩
    rcases hmin : minList acc.1.available_dcas with _ | m
    · refine ⟨?_, ?_, ?_⟩ <;> simp only [assignChar, if_neg hm, hmin]
      · rw [dictSet_fresh _ _ _ hfresh, hkeys 1, hk]
      · exact hnd'
      · exact htr'
    · refine ⟨?_, ?_, ?_⟩ <;> simp only [assignChar, if_neg hm, hmin]
      · rw [dictSet_fresh _ _ _ hfresh, hkeys m, hk]
      · exact hnd'
      · exact htr'

theorem foldl_assignChar_basic :
    ∀ (l : List String) (acc : AllocState × List String), basicWF acc.1 →
      basicWF ((l.foldl assignChar acc).1) := by
  intro l
  induction l with
  | nil => intro acc h; exact h
  | cons c rest ih =>
    intro acc h
    simp only [List.foldl_cons]
    exact ih _ (assignChar_basic acc c h)

theorem emitCue_state (res : Cue × AllocState) :
    (emitCue res).dca_assignments = res.2.dca_assignments ∧
    (emitCue res).active_mics = res.2.active_mics ∧
    (emitCue res).available_dcas = res.2.available_dcas ∧
    (emitCue res).fallback_used = res.2.fallback_used := by
  simp [emitCue]

theorem emitCue_basic (res : Cue × AllocState) (h : basicWF res.2) :
    basicWF (emitCue res) := by
  rcases emitCue_state res with ⟨h1, h2, -, -⟩
  rcases h with ⟨hk, hnd, htr⟩
  exact ⟨by rw [h1, h2]; exact hk, by rw [h2]; exact hnd, by rw [h2]; exact htr⟩

theorem stepElem_basic (chmap : List (String × String)) (n : Nat)
    (perm : List String → List String) (past : List Element) (st : AllocState)
    (e : Element) (rest : List Element) (h : basicWF st) :
    basicWF (stepElem chmap n perm past st e rest) := by
  simp only [stepElem]
  split
  · exact h
  · split
    · simp only [sceneStep]
      split
      · exact h
      · exact emitCue_basic _ (foldl_applyMute_basic chmap _ _ h)
    · split
      · simp only [charStep]
        have hb1 : basicWF ((split_characters e.element_text).foldl assignChar (st, [])).1 :=
          foldl_assignChar_basic _ _ h
        split
        · exact hb1
        · exact emitCue_basic _
            (foldl_applyMute_basic chmap _ _ (foldl_applyUnmute_basic chmap _ _ hb1))
      · exact h

theorem basicWF_trace (chmap : List (String × String)) (n : Nat)
    (perm : List String → List String) :
    ∀ (l past : List Element) (st : AllocState), basicWF st →
      ∀ s ∈ traceStates chmap n perm past st l, basicWF s := by
  intro l
  induction l with
  | nil =>
    intro past st h s hs
    simp [traceStates] at hs
    subst hs; exact h
  | cons e rest ih =>
    intro past st h s hs
    simp only [traceStates, List.mem_cons] at hs
    rcases hs with hs | hs
    · subst hs; exact h
    · exact ih (past ++ [e]) (stepElem chmap n perm past st e rest)
        (stepElem_basic chmap n perm past st e rest h) s hs

theorem basicWF_init : basicWF initState :=
  ⟨rfl, by simp [initState], by simp [initState]⟩

/-- The C6 claim predicate: the keys of the character-to-slot assignment
coincide with the active set, and every such key is the stripped name
truncated to at most 12 characters (`character.strip()[:12]`) — the single
identity under which a character is tracked, liveness-checked (the mute pass
calls `speaks_within` on members of `active_mics`) and compared with the
first speakers at a scene boundary (the boundary filter tests members of
`active_mics` against `firstSpeakers`). -/
def truncatedKeyInvariant (st : AllocState) : Prop :=
  keysOf st.dca_assignments = st.active_mics ∧
  (∀ c ∈ st.active_mics, truncatedKey c) ∧
  (∀ c ∈ st.active_mics, c.data.length ≤ 12)

/-- C6: throughout every run, the liveness/assignment key of each character
is the normalized name truncated to at most 12 characters: at every point of
the pass, the active set and the assignment keys are the same ordered list,
and each entry is of the form `pyTrunc (pyStrip raw) 12` (hence has length at
most 12).  The mute pass passes exactly these entries to `speaks_within`, and
the scene-boundary pass compares exactly these entries with the first
speakers (see `charStep` and `sceneStep`). -/
theorem character_key_truncated (chmap : List (String × String)) (n : Nat)
    (elements : List Element) (st : AllocState)
    (hst : st ∈ allocTrace chmap n elements) : truncatedKeyInvariant st := by
  have h := basicWF_trace chmap n idPerm elements [] initState basicWF_init st hst
  rcases h with ⟨hk, hnd, htr⟩
  exact ⟨hk, htr, fun c hc => truncatedKey_length c (htr c hc)⟩

/-- Script for the C6 witness: a 14-character name is stored truncated. -/
def c6Script : List Element :=
  [⟨"Character", "JOJO THE AMAZING"⟩, ⟨"Dialogue", "hello"⟩]

/-- Witness for `character_key_truncated` at the final state of a concrete
run whose character name exceeds 12 characters. -/
theorem character_key_truncated_witness :
    truncatedKeyInvariant (runFrom [] 7 idPerm [] initState c6Script) :=
  character_key_truncated [] 7 c6Script
    (runFrom [] 7 idPerm [] initState c6Script) (by decide)

/-! ## The slot-pool invariant -/

theorem minList_mem : ∀ (l : List Nat) (m : Nat), minList l = some m → m ∈ l := by
  intro l
  induction l with
  | nil => intro m h; simp [minList] at h
  | cons n rest ih =>
    intro m h
    simp only [minList] at h
    rcases hr : minList rest with _ | m'
    · rw [hr] at h
      simp at h
      simp [h]
    · rw [hr] at h
      simp at h
      subst h
      by_cases hnm : n ≤ m'
      · simp [Nat.min_eq_left hnm]
      · simp [Nat.min_eq_right (Nat.le_of_not_le hnm), ih m' hr]

theorem mem_eraseNat (l : List Nat) (t x : Nat) (h : x ∈ eraseNat l t) : x ∈ l := by
  induction l with
  | nil => simpa [eraseNat] using h
  | cons a rest ih =>
    by_cases ha : a = t
    · simp [eraseNat, ha] at h
      exact List.mem_cons_of_mem _ h
    · simp [eraseNat, ha] at h
      rcases h with h | h
      · simp [h]
      · exact List.mem_cons_of_mem _ (ih h)

theorem mem_eraseNat_of_ne (l : List Nat) (t x : Nat) (hx : x ∈ l) (hne : x ≠ t) :
    x ∈ eraseNat l t := by
  induction l with
  | nil => simp at hx
  | cons a rest ih =>
    by_cases ha : a = t
    · simp [eraseNat, ha]
      rcases List.mem_cons.mp hx with h | h
      · exact absurd (h.trans ha) hne
      · exact h
    · simp [eraseNat, ha]
      rcases List.mem_cons.mp hx with h | h
      · exact Or.inl h
      · exact Or.inr (ih h)

theorem nodup_eraseNat (l : List Nat) (t : Nat) (h : l.Nodup) :
    (eraseNat l t).Nodup := by
  induction l with
  | nil => simp [eraseNat]
  | cons a rest ih =>
    rcases List.nodup_cons.mp h with ⟨ha, hrest⟩
    by_cases hat : a = t
    · simpa [eraseNat, hat] using hrest
    · simp only [eraseNat, if_neg hat]
      exact List.nodup_cons.mpr ⟨fun hmem => ha (mem_eraseNat rest t a hmem), ih hrest⟩

theorem not_mem_eraseNat_self (l : List Nat) (t : Nat) (h : l.Nodup) :
    t ∉ eraseNat l t := by
  induction l with
  | nil => simp [eraseNat]
  | cons a rest ih =>
    rcases List.nodup_cons.mp h with ⟨ha, hrest⟩
    by_cases hat : a = t
    · simp only [eraseNat, if_pos hat]
      subst hat; exact ha
    · simp only [eraseNat, if_neg hat]
      intro hmem
      rcases List.mem_cons.mp hmem with h | h
      · exact hat h.symm
      · exact ih hrest h

theorem mem_addNatSet (l : List Nat) (n x : Nat) :
    x ∈ addNatSet l n ↔ x ∈ l ∨ x = n := by
  by_cases hm : memNat l n
  · simp only [addNatSet, if_pos hm]
    constructor
    · exact Or.inl
    · rintro (h | h)
      · exact h
      · subst h; exact (memNat_iff l x).mp hm
  · simp [addNatSet, hm]

theorem addNatSet_nodup (l : List Nat) (n : Nat) (h : l.Nodup) :
    (addNatSet l n).Nodup := by
  by_cases hm : memNat l n
  · simpa [addNatSet, hm] using h
  · simp only [addNatSet, if_neg hm]
    refine List.nodup_append.mpr ⟨h, by simp, ?_⟩
    intro x hx hb
    simp at hb
    rw [hb] at hx
    exact hm ((memNat_iff l n).mpr hx)

theorem lookupKey_split :
    ∀ (l : List (String × Nat)) (c : String) (v : Nat), lookupKey l c = some v →
      ∃ l1 l2, l = l1 ++ (c, v) :: l2 ∧ delKey l c = l1 ++ l2 ∧
        (∀ p ∈ l1, p.1 ≠ c) := by
  intro l
  induction l with
  | nil => intro c v h; simp [lookupKey] at h
  | cons p rest ih =>
    intro c v h
    rcases p with ⟨k', v'⟩
    by_cases hk : k' = c
    · simp only [lookupKey, if_pos hk] at h
      subst hk
      injection h with h
      subst h
      exact ⟨[], rest, by simp, by simp [delKey], by simp⟩
    · simp only [lookupKey, if_neg hk] at h
      obtain ⟨l1, l2, he, hd, hl1⟩ := ih c v h
      refine ⟨(k', v') :: l1, l2, by simp [he], by simp [delKey, hk, hd], ?_⟩
      intro q hq
      rcases List.mem_cons.mp hq with hq | hq
      · subst hq; exact hk
      · exact hl1 q hq

theorem lookupKey_isSome :
    ∀ (l : List (String × Nat)) (c : String), c ∈ keysOf l →
      ∃ v, lookupKey l c = some v := by
  intro l
  induction l with
  | nil => intro c h; simp [keysOf] at h
  | cons p rest ih =>
    intro c h
    rcases p with ⟨k', v'⟩
    by_cases hk : k' = c
    · exact ⟨v', by simp [lookupKey, hk]⟩
    · simp [keysOf] at h
      rcases h with h | h
      · exact absurd h.symm hk
      · obtain ⟨v, hv⟩ := ih c (by simpa [keysOf] using h)
        exact ⟨v, by simp [lookupKey, hk, hv]⟩

theorem valsOf_append (l1 l2 : List (String × Nat)) :
    valsOf (l1 ++ l2) = valsOf l1 ++ valsOf l2 := by
  simp [valsOf]

/-- The slot-pool half of the allocator invariant, phrased over the free set
and the assignment values: the free set is a duplicate-free subset of 1..12,
the bound slots are duplicate-free and within 1..12, and every slot of 1..12
is free or bound but never both. -/
def slotWF (st : AllocState) : Prop :=
  st.available_dcas.Nodup ∧
  (∀ d ∈ st.available_dcas, d ∈ dcaRange) ∧
  (valsOf st.dca_assignments).Nodup ∧
  (∀ d ∈ valsOf st.dca_assignments, d ∈ dcaRange) ∧
  (∀ d ∈ st.available_dcas, d ∉ valsOf st.dca_assignments) ∧
  (∀ d ∈ dcaRange, d ∉ st.available_dcas → d ∈ valsOf st.dca_assignments)

theorem applyMute_slot (chmap : List (String × String)) (acc : Cue × AllocState)
    (c : String) (hb : basicWF acc.2) (hs : slotWF acc.2)
    (hc : c ∈ acc.2.active_mics) : slotWF ((applyMute chmap acc c).2) := by
  obtain ⟨hk, hnd, -⟩ := hb
  obtain ⟨hand, har, hvnd, hvr, hdisj, hcov⟩ := hs
  have hck : c ∈ keysOf acc.2.dca_assignments := by rw [hk]; exact hc
  obtain ⟨d0, hl⟩ := lookupKey_isSome _ c hck
  obtain ⟨l1, l2, hsplit, hdel, -⟩ := lookupKey_split _ c d0 hl
  have hv : valsOf acc.2.dca_assignments = valsOf l1 ++ d0 :: valsOf l2 := by
    rw [hsplit]; simp [valsOf]
  have hv' : valsOf (delKey acc.2.dca_assignments c) = valsOf l1 ++ valsOf l2 := by
    rw [hdel]; simp [valsOf]
  have hd0m : d0 ∈ valsOf acc.2.dca_assignments := by rw [hv]; simp
  have hd0r : d0 ∈ dcaRange := hvr _ hd0m
  have hnd2 : (valsOf l1 ++ d0 :: valsOf l2).Nodup := hv ▸ hvnd
  obtain ⟨hnl1, hnl2', hdisj12⟩ := List.nodup_append.mp hnd2
  obtain ⟨hd0l2, hnl2⟩ := List.nodup_cons.mp hnl2'
  have hd0l1 : d0 ∉ valsOf l1 := fun hmem => hdisj12 hmem (by simp)
  have hd0nin : d0 ∉ valsOf l1 ++ valsOf l2 := by
    intro hmem
    rcases List.mem_append.mp hmem with hmem | hmem
    · exact hd0l1 hmem
    · exact hd0l2 hmem
  have hsub : ∀ x ∈ valsOf l1 ++ valsOf l2, x ∈ valsOf acc.2.dca_assignments := by
    intro x hx
    rw [hv]
    rcases List.mem_append.mp hx with hx | hx
    · exact List.mem_append.mpr (Or.inl hx)
    · exact List.mem_append.mpr (Or.inr (List.mem_cons_of_mem _ hx))
  have hnew : (valsOf l1 ++ valsOf l2).Nodup := by
    refine List.nodup_append.mpr ⟨hnl1, hnl2, ?_⟩
    intro x hx1 hx2
    exact hdisj12 hx1 (List.mem_cons_of_mem _ hx2)
  have hget : (lookupKey acc.2.dca_assignments c).getD 0 = d0 := by rw [hl]; rfl
  have hA : (applyMute chmap acc c).2.dca_assignments
      = delKey acc.2.dca_assignments c := applyMute_assign chmap acc c
  have hB : (applyMute chmap acc c).2.available_dcas
      = addNatSet acc.2.available_dcas d0 := by
    rw [applyMute_avail, hget]
  refine ⟨?_, ?_, ?_, ?_, ?_, ?_⟩
  · rw [hB]; exact addNatSet_nodup _ _ hand
  · rw [hB]
    intro d hd
    rcases (mem_addNatSet _ _ _).mp hd with hd | hd
    · exact har d hd
    · subst hd; exact hd0r
  · rw [hA, hv']; exact hnew
  · rw [hA, hv']
    intro d hd
    exact hvr d (hsub d hd)
  · rw [hA, hB, hv']
    intro d hd
    rcases (mem_addNatSet _ _ _).mp hd with hd | hd
    · intro hmem
      exact hdisj d hd (hsub d hmem)
    · subst hd
      exact hd0nin
  · rw [hA, hB, hv']
    intro d hdr hdna
    have hne : d ≠ d0 := by
      intro he
      subst he
      exact hdna ((mem_addNatSet _ _ _).mpr (Or.inr rfl))
    have hda : d ∉ acc.2.available_dcas := by
      intro hmem
      exact hdna ((mem_addNatSet _ _ _).mpr (Or.inl hmem))
    have hdv : d ∈ valsOf acc.2.dca_assignments := hcov d hdr hda
    rw [hv] at hdv
    rcases List.mem_append.mp hdv with hdv | hdv
    · exact List.mem_append.mpr (Or.inl hdv)
    · rcases List.mem_cons.mp hdv with hdv | hdv
      · exact absurd hdv hne
      · exact List.mem_append.mpr (Or.inr hdv)

theorem assignChar_fb_mono (acc : AllocState × List String) (c : String)
    (h : acc.1.fallback_used = true) :
    ((assignChar acc c).1).fallback_used = true := by
  by_cases hm : memStr acc.1.active_mics (pyTrunc (pyStrip c) 12)
  · simpa [assignChar, hm] using h
  · rcases hmin : minList acc.1.available_dcas with _ | m
    · simp [assignChar, hm, hmin]
    · simpa [assignChar, hm, hmin] using h

theorem foldl_assignChar_fb_mono :
    ∀ (l : List String) (acc : AllocState × List String),
      acc.1.fallback_used = true →
      ((l.foldl assignChar acc).1).fallback_used = true := by
  intro l
  induction l with
  | nil => intro acc h; exact h
  | cons c rest ih =>
    intro acc h
    simp only [List.foldl_cons]
    exact ih _ (assignChar_fb_mono acc c h)

theorem assignChar_slot (acc : AllocState × List String) (c : String)
    (hb : basicWF acc.1) (hs : slotWF acc.1)
    (hnf : ((assignChar acc c).1).fallback_used = false) :
    slotWF ((assignChar acc c).1) := by
  obtain ⟨hk, -, -⟩ := hb
  obtain ⟨hand, har, hvnd, hvr, hdisj, hcov⟩ := hs
  by_cases hm : memStr acc.1.active_mics (pyTrunc (pyStrip c) 12)
  · simpa [assignChar, hm] using ⟨hand, har, hvnd, hvr, hdisj, hcov⟩
  · rcases hmin : minList acc.1.available_dcas with _ | m
    · exfalso
      have : ((assignChar acc c).1).fallback_used = true := by
        simp [assignChar, hm, hmin]
      rw [this] at hnf
      exact absurd hnf (by decide)
    · have hma : m ∈ acc.1.available_dcas := minList_mem _ m hmin
      have hmr : m ∈ dcaRange := har m hma
      have hmv : m ∉ valsOf acc.1.dca_assignments := hdisj m hma
      have hfresh : pyTrunc (pyStrip c) 12 ∉ keysOf acc.1.dca_assignments := by
        rw [hk]
        intro hmem
        exact hm ((memStr_iff _ _).mpr hmem)
      have hda : dictSet acc.1.dca_assignments (pyTrunc (pyStrip c) 12) m
          = acc.1.dca_assignments ++ [(pyTrunc (pyStrip c) 12, m)] :=
        dictSet_fresh _ _ _ hfresh
      have hvals : valsOf (acc.1.dca_assignments
            ++ [(pyTrunc (pyStrip c) 12, m)])
          = valsOf acc.1.dca_assignments ++ [m] := by
        simp [valsOf]
      refine ⟨?_, ?_, ?_, ?_, ?_, ?_⟩ <;>
        simp only [assignChar, if_neg hm, hmin]
      · exact nodup_eraseNat _ _ hand
      · intro d hd
        exact har d (mem_eraseNat _ _ _ hd)
      all_goals rw [hda, hvals]
      · refine List.nodup_append.mpr ⟨hvnd, by simp, ?_⟩
        intro x hx hb2
        simp at hb2
        rw [hb2] at hx
        exact hmv hx
      · intro d hd
        rcases List.mem_append.mp hd with hd | hd
        · exact hvr d hd
        · simp at hd
          rw [hd]; exact hmr
      · intro d hd
        have hda2 : d ∈ acc.1.available_dcas := mem_eraseNat _ _ _ hd
        have hdm : d ≠ m := by
          intro he
          rw [he] at hd
          exact not_mem_eraseNat_self _ _ hand hd
        intro hmem
        rcases List.mem_append.mp hmem with hmem | hmem
        · exact hdisj d hda2 hmem
        · simp at hmem
          exact hdm hmem
      · intro d hdr hdna
        by_cases hdm : d = m
        · subst hdm
          simp
        · have : d ∉ acc.1.available_dcas := by
            intro hmem
            exact hdna (mem_eraseNat_of_ne _ _ _ hmem hdm)
          exact List.mem_append.mpr (Or.inl (hcov d hdr this))

theorem foldl_applyMute_slot (chmap : List (String × String)) :
    ∀ (l : List String) (acc : Cue × AllocState),
      basicWF acc.2 → slotWF acc.2 → l.Nodup →
      (∀ x ∈ l, x ∈ acc.2.active_mics) →
      slotWF ((l.foldl (applyMute chmap) acc).2) := by
  intro l
  induction l with
  | nil => intro acc _ hs _ _; exact hs
  | cons c rest ih =>
    intro acc hb hs hnd hmem
    rcases List.nodup_cons.mp hnd with ⟨hcr, hndr⟩
    have hc : c ∈ acc.2.active_mics := hmem c (by simp)
    simp only [List.foldl_cons]
    refine ih _ (applyMute_basic chmap acc c hb) (applyMute_slot chmap acc c hb hs hc)
      hndr ?_
    intro x hx
    rw [applyMute_active]
    refine mem_eraseStr_of_ne _ _ _ (hmem x (List.mem_cons_of_mem _ hx)) ?_
    intro he
    rw [he] at hx
    exact hcr hx

theorem foldl_applyUnmute_state (chmap : List (String × String)) :
    ∀ (l : List String) (acc : Cue × AllocState),
      ((l.foldl (applyUnmute chmap) acc).2).dca_assignments = acc.2.dca_assignments ∧
      ((l.foldl (applyUnmute chmap) acc).2).active_mics = acc.2.active_mics ∧
      ((l.foldl (applyUnmute chmap) acc).2).available_dcas = acc.2.available_dcas ∧
      ((l.foldl (applyUnmute chmap) acc).2).fallback_used = acc.2.fallback_used := by
  intro l
  induction l with
  | nil => intro acc; exact ⟨rfl, rfl, rfl, rfl⟩
  | cons c rest ih =>
    intro acc
    simp only [List.foldl_cons]
    rcases ih (applyUnmute chmap acc c) with ⟨h1, h2, h3, h4⟩
    rcases applyUnmute_state chmap acc c with ⟨g1, g2, g3, g4⟩
    exact ⟨h1.trans g1, h2.trans g2, h3.trans g3, h4.trans g4⟩

theorem foldl_applyUnmute_slot (chmap : List (String × String))
    (l : List String) (acc : Cue × AllocState) (h : slotWF acc.2) :
    slotWF ((l.foldl (applyUnmute chmap) acc).2) := by
  rcases foldl_applyUnmute_state chmap l acc with ⟨h1, -, h3, -⟩
  rcases h with ⟨a, b, c2, d, e2, f⟩
  refine ⟨?_, ?_, ?_, ?_, ?_, ?_⟩
  · rw [h3]; exact a
  · rw [h3]; exact b
  · rw [h1]; exact c2
  · rw [h1]; exact d
  · rw [h1, h3]; exact e2
  · rw [h1, h3]; exact f

theorem emitCue_slot (res : Cue × AllocState) (h : slotWF res.2) :
    slotWF (emitCue res) := by
  rcases emitCue_state res with ⟨h1, -, h3, -⟩
  rcases h with ⟨a, b, c2, d, e2, f⟩
  refine ⟨?_, ?_, ?_, ?_, ?_, ?_⟩
  · rw [h3]; exact a
  · rw [h3]; exact b
  · rw [h1]; exact c2
  · rw [h1]; exact d
  · rw [h1, h3]; exact e2
  · rw [h1, h3]; exact f

theorem foldl_applyMute_fb (chmap : List (String × String)) :
    ∀ (l : List String) (acc : Cue × AllocState),
      ((l.foldl (applyMute chmap) acc).2).fallback_used = acc.2.fallback_used := by
  intro l
  induction l with
  | nil => intro acc; rfl
  | cons c rest ih =>
    intro acc
    simp only [List.foldl_cons]
    rw [ih (applyMute chmap acc c), applyMute_fb]

theorem sceneStep_fb (chmap : List (String × String)) (st : AllocState)
    (past rest : List Element) :
    (sceneStep chmap st past rest).fallback_used = st.fallback_used := by
  simp only [sceneStep]
  split
  · rfl
  · rw [(emitCue_state _).2.2.2, foldl_applyMute_fb]

theorem charStep_fb (chmap : List (String × String)) (n : Nat)
    (perm : List String → List String) (st : AllocState) (e : Element)
    (rest : List Element) :
    (charStep chmap n perm st e rest).fallback_used
      = (((split_characters e.element_text).foldl assignChar (st, [])).1).fallback_used := by
  simp only [charStep]
  split
  · rfl
  · rw [(emitCue_state _).2.2.2, foldl_applyMute_fb,
      (foldl_applyUnmute_state chmap _ _).2.2.2]

theorem stepElem_fb_mono (chmap : List (String × String)) (n : Nat)
    (perm : List String → List String) (past : List Element) (st : AllocState)
    (e : Element) (rest : List Element) (h : st.fallback_used = true) :
    (stepElem chmap n perm past st e rest).fallback_used = true := by
  simp only [stepElem]
  split
  · exact h
  · split
    · rw [sceneStep_fb]; exact h
    · split
      · rw [charStep_fb]
        exact foldl_assignChar_fb_mono _ (st, []) h
      · exact h

theorem runFrom_fb_mono (chmap : List (String × String)) (n : Nat)
    (perm : List String → List String) :
    ∀ (l past : List Element) (st : AllocState), st.fallback_used = true →
      (runFrom chmap n perm past st l).fallback_used = true := by
  intro l
  induction l with
  | nil => intro past st h; exact h
  | cons e rest ih =>
    intro past st h
    simp only [runFrom]
    exact ih _ _ (stepElem_fb_mono chmap n perm past st e rest h)

theorem foldl_assignChar_slot :
    ∀ (l : List String) (acc : AllocState × List String),
      basicWF acc.1 → slotWF acc.1 →
      ((l.foldl assignChar acc).1).fallback_used = false →
      slotWF ((l.foldl assignChar acc).1) := by
  intro l
  induction l with
  | nil => intro acc _ hs _; exact hs
  | cons c rest ih =>
    intro acc hb hs hnf
    simp only [List.foldl_cons] at hnf ⊢
    have hfb : ((assignChar acc c).1).fallback_used = false := by
      cases hf : ((assignChar acc c).1).fallback_used
      · rfl
      · rw [foldl_assignChar_fb_mono rest _ hf] at hnf
        exact absurd hnf (by decide)
    exact ih _ (assignChar_basic acc c hb) (assignChar_slot acc c hb hs hfb) hnf

theorem stepElem_slot (chmap : List (String × String)) (n : Nat)
    (past : List Element) (st : AllocState) (e : Element) (rest : List Element)
    (hb : basicWF st) (hs : slotWF st)
    (hnf : (stepElem chmap n idPerm past st e rest).fallback_used = false) :
    slotWF (stepElem chmap n idPerm past st e rest) := by
  by_cases h1 : e.element_type = "Comment" ∧ (parsePageNum e.element_text).isSome
  · simp only [stepElem, if_pos h1]
    exact hs
  · by_cases h2 : e.element_type = "Scene Heading"
    · rw [stepElem_scene chmap n idPerm past st e rest h2]
      simp only [sceneStep]
      split
      · exact hs
      · refine emitCue_slot _ (foldl_applyMute_slot chmap _ _ hb hs ?_ ?_)
        · exact List.Nodup.filter _ hb.2.1
        · intro x hx
          exact List.mem_of_mem_filter hx
    · by_cases h3 : e.element_type = "Character"
      · rw [stepElem_char chmap n idPerm past st e rest h3] at hnf ⊢
        rw [charStep_fb] at hnf
        have hb1 : basicWF (((split_characters e.element_text).foldl
            assignChar (st, [])).1) := foldl_assignChar_basic _ _ hb
        have hs1 : slotWF (((split_characters e.element_text).foldl
            assignChar (st, [])).1) := foldl_assignChar_slot _ _ hb hs hnf
        simp only [charStep]
        split
        · exact hs1
        · refine emitCue_slot _ (foldl_applyMute_slot chmap _ _ ?_ ?_ ?_ ?_)
          · exact foldl_applyUnmute_basic chmap _ _ hb1
          · exact foldl_applyUnmute_slot chmap _ _ hs1
          · exact List.Nodup.filter _ hb1.2.1
          · intro x hx
            rw [(foldl_applyUnmute_state chmap _ _).2.1]
            exact List.mem_of_mem_filter hx
      · have he : stepElem chmap n idPerm past st e rest = st := by
          simp [stepElem, h1, h2, h3]
        rw [he]
        exact hs

theorem allocWF_trace (chmap : List (String × String)) (n : Nat) :
    ∀ (l past : List Element) (st : AllocState), basicWF st → slotWF st →
      (runFrom chmap n idPerm past st l).fallback_used = false →
      ∀ s ∈ traceStates chmap n idPerm past st l, basicWF s ∧ slotWF s := by
  intro l
  induction l with
  | nil =>
    intro past st hb hs _ s hsmem
    simp [traceStates] at hsmem
    subst hsmem
    exact ⟨hb, hs⟩
  | cons e rest ih =>
    intro past st hb hs hnf s hsmem
    simp only [runFrom] at hnf
    have hstf : (stepElem chmap n idPerm past st e rest).fallback_used = false := by
      cases hf : (stepElem chmap n idPerm past st e rest).fallback_used
      · rfl
      · rw [runFrom_fb_mono chmap n idPerm rest (past ++ [e]) _ hf] at hnf
        exact absurd hnf (by decide)
    simp only [traceStates, List.mem_cons] at hsmem
    rcases hsmem with hsmem | hsmem
    · subst hsmem; exact ⟨hb, hs⟩
    · exact ih (past ++ [e]) (stepElem chmap n idPerm past st e rest)
        (stepElem_basic chmap n idPerm past st e rest hb)
        (stepElem_slot chmap n past st e rest hb hs hstf) hnf s hsmem

theorem slotWF_init : slotWF initState := by
  refine ⟨?_, ?_, ?_, ?_, ?_, ?_⟩ <;> decide

/-- The C1 claim predicate over an allocator state: the assignment keys are
exactly the active characters, at most 12 characters are active, every slot
number 1..12 is in the free pool or bound but never both, and no slot is
bound to two distinct characters. -/
def slotPoolInvariant (st : AllocState) : Prop :=
  keysOf st.dca_assignments = st.active_mics ∧
  st.active_mics.length ≤ 12 ∧
  (∀ d ∈ dcaRange,
    (d ∈ st.available_dcas ∧ d ∉ valsOf st.dca_assignments) ∨
    (d ∉ st.available_dcas ∧ d ∈ valsOf st.dca_assignments)) ∧
  (∀ p ∈ st.dca_assignments, ∀ q ∈ st.dca_assignments, p.2 = q.2 → p.1 = q.1)

instance slotPoolInvariantDecidable (st : AllocState) :
    Decidable (slotPoolInvariant st) := by
  unfold slotPoolInvariant
  infer_instance

theorem slotPool_of_wf (st : AllocState) (hb : basicWF st) (hs : slotWF st) :
    slotPoolInvariant st := by
  obtain ⟨hk, hnd, -⟩ := hb
  obtain ⟨hand, har, hvnd, hvr, hdisj, hcov⟩ := hs
  have hvnd' : (st.dca_assignments.map Prod.snd).Nodup := hvnd
  refine ⟨hk, ?_, ?_, ?_⟩
  · have h1 : st.active_mics.length = (valsOf st.dca_assignments).length := by
      rw [← hk]; simp [keysOf, valsOf]
    have h2 : (valsOf st.dca_assignments).length ≤ dcaRange.length :=
      (List.Nodup.subperm hvnd (fun d hd => hvr d hd)).length_le
    have h3 : dcaRange.length = 12 := rfl
    rw [h1]
    rw [h3] at h2
    exact h2
  · intro d hdr
    by_cases hda : d ∈ st.available_dcas
    · exact Or.inl ⟨hda, hdisj d hda⟩
    · exact Or.inr ⟨hda, hcov d hdr hda⟩
  · intro p hp q hq hpq
    have hpe : p = q := List.inj_on_of_nodup_map hvnd' hp hq hpq
    rw [hpe]

/-- C1 (amended): throughout the allocator's single pass — at every state of
the trace, hence at every emitted cue — the slot pool invariant holds
(assignment keys = active set, at most 12 active characters, every slot 1..12
free XOR bound, and no slot bound to two characters), PROVIDED the defensive
slot-pool-exhaustion fallback never fires during the run (the final state's
warning flag is false).  When the fallback does fire the invariant is
violated — see the counterexample. -/
theorem slot_pool_invariant_no_fallback (chmap : List (String × String))
    (n : Nat) (elements : List Element)
    (hfb : (runFrom chmap n idPerm [] initState elements).fallback_used = false) :
    ∀ st ∈ allocTrace chmap n elements, slotPoolInvariant st := by
  intro st hst
  obtain ⟨hb, hs⟩ := allocWF_trace chmap n elements [] initState
    basicWF_init slotWF_init hfb st hst
  exact slotPool_of_wf st hb hs

/-- Script driving the pool into exhaustion: one heading with 13 names forces
the fallback, after which two characters share slot 1 and 13 characters are
active. -/
def c1Script : List Element :=
  [⟨"Character",
    "Aa & Ba & Ca & Da & Ea & Fa & Ga & Ha & Ia & Ja & Ka & La & Ma"⟩]

/-- C1 (counterexample to the claim as stated): after the fallback fires the
slot pool invariant fails at a trace state (two active characters are bound
to slot 1 and 13 characters are active), so it does not hold "including after
the defensive slot-pool-exhaustion fallback". -/
theorem slot_pool_invariant_counterexample :
    ¬ (∀ st ∈ allocTrace [] 7 c1Script, slotPoolInvariant st) := by decide

/-- Witness for `slot_pool_invariant_no_fallback` on a run without fallback. -/
theorem slot_pool_invariant_no_fallback_witness :
    slotPoolInvariant (runFrom [] 7 idPerm [] initState
      [⟨"Character", "Aa"⟩]) := by
  have h := slot_pool_invariant_no_fallback [] 7 [⟨"Character", "Aa"⟩] (by decide)
  exact h _ (by decide)
